import Mathlib

/-!
Verification development for the NaniShiteruSensei lecture pipeline
(`lecture_notes_ollama.py`, `transcribe_lecture.py`, `translate_jp_to_en_ollama.py`).

Strings are modelled as `List Char` (Python `str` by code points).  Python's
float threshold in `looks_like_japanese` is modelled as `ℚ`; every comparison
the claims exercise (ratios 0 and 1 against thresholds at 0 and 1) is exact in
IEEE floating point, so the rational model agrees with the source there.
-/

namespace NaniShiteru

/-- The whitespace characters stripped by Python's `str.strip()` (ASCII part:
space, tab, newline, carriage return, vertical tab, form feed). -/
def isWS (c : Char) : Bool :=
  c = ' ' || c = '\t' || c = '\n' || c = '\r' || c = '\x0b' || c = '\x0c'

/-- Python `str.lstrip()`: drop leading whitespace. -/
def lstrip (s : List Char) : List Char := s.dropWhile isWS

/-- Python `str.strip()`: drop leading and trailing whitespace
(right strip implemented as left strip of the reversal). -/
def pyStrip (s : List Char) : List Char := ((lstrip s).reverse.dropWhile isWS).reverse

/-- The non-whitespace content of a string, in order. -/
def nonWS (s : List Char) : List Char := s.filter (fun c => !isWS c)

/-- Python `sep.join(parts)`. -/
def joinSep (sep : List Char) : List (List Char) → List Char
  | [] => []
  | [x] => x
  | x :: xs => x ++ sep ++ joinSep sep xs

/-- `"\n".join(...)` as used by `chunk_text` and `transcribe_chunks`. -/
def joinNl : List (List Char) → List Char := joinSep ['\n']

/-- Python `text.split("\n")`. -/
def splitNl : List Char → List (List Char)
  | [] => [[]]
  | c :: rest =>
    if c = '\n' then [] :: splitNl rest
    else
      match splitNl rest with
      | [] => [[c]]
      | p :: ps => (c :: p) :: ps

/-- First phase of the normalization, `text.replace("\r\n", "\n")`
(left-to-right, non-overlapping). -/
def replaceCRLF : List Char → List Char
  | [] => []
  | [c] => [c]
  | c :: d :: rest =>
    if c = '\r' ∧ d = '\n' then '\n' :: replaceCRLF rest
    else c :: replaceCRLF (d :: rest)

/-- Second phase, `text.replace("\r", "\n")`. -/
def replaceCR (s : List Char) : List Char :=
  s.map (fun c => if c = '\r' then '\n' else c)

/-- The newline normalization prelude shared by `chunk_text` and the
translation script's paragraph chunker. -/
def normalizeNewlines (s : List Char) : List Char := replaceCR (replaceCRLF s)

/-- The accumulator loop of `chunk_text` (src/lecture_notes_ollama.py:49-63),
returning the accumulated line groups (`current` at each close and at the end);
`chunk_text` emits `"\n".join(current).strip()` for each group. -/
def chunkAux (m : Nat) (cur : List (List Char)) (curLen : Nat) :
    List (List Char) → List (List (List Char))
  | [] => if cur ≠ [] then [cur] else []
  | l :: ls =>
    let l' := pyStrip l
    if curLen + l'.length + 1 > m ∧ cur ≠ [] then
      cur :: chunkAux m [l'] (l'.length + 1) ls
    else
      chunkAux m (cur ++ [l']) (curLen + l'.length + 1) ls

/-- The line groups accumulated by `chunk_text text m`. -/
def chunkGroups (text : List Char) (m : Nat) : List (List (List Char)) :=
  chunkAux m [] 0 (splitNl (normalizeNewlines text))

/-- `chunk_text` (src/lecture_notes_ollama.py:38-65): greedy line-based
chunking; each group is emitted as `"\n".join(current).strip()` and empty
chunks are filtered at the end (`[c for c in chunks if c]`). -/
def chunk_text (text : List Char) (m : Nat) : List (List Char) :=
  ((chunkGroups text m).map (fun g => pyStrip (joinNl g))).filter (fun c => c ≠ [])

/-! ### transcribe_lecture.py: language heuristic and transcription loop -/

/-- The regex class `[ぁ-んァ-ン一-龯]` of `looks_like_japanese`
(src/transcribe_lecture.py:56): hiragana U+3041-U+3093, katakana
U+30A1-U+30F3, CJK U+4E00-U+9FAF. -/
def isJpChar (c : Char) : Bool :=
  (0x3041 ≤ c.toNat && c.toNat ≤ 0x3093) ||
  (0x30A1 ≤ c.toNat && c.toNat ≤ 0x30F3) ||
  (0x4E00 ≤ c.toNat && c.toNat ≤ 0x9FAF)

/-- `looks_like_japanese` (src/transcribe_lecture.py:47-58).  The Python
float threshold and ratio are modelled as rationals; in the boundary cases
the claims exercise (ratio exactly 0 or 1, thresholds compared with 0 and
1), IEEE float arithmetic is exact, so the model agrees with the source. -/
def looks_like_japanese (text : List Char) (threshold : ℚ := 3/10) : Bool :=
  if text = [] then false
  else
    let jp_chars := text.filter isJpChar
    let ratio : ℚ := (jp_chars.length : ℚ) / ((max text.length 1 : Nat) : ℚ)
    decide (ratio ≥ threshold)

/-- `f"\n[? 非日本語っぽいチャンク {i}] {text}\n"`
(src/transcribe_lecture.py:97). -/
def jpFlagEntry (i : Nat) (text : List Char) : List Char :=
  "\n[? 非日本語っぽいチャンク ".toList ++ Nat.toDigits 10 i ++
    "] ".toList ++ text ++ "\n".toList

/-- `f"\n----- [Chunk {i}] {chunk_path.name} -----\n{text}\n"`
(src/transcribe_lecture.py:100). -/
def chunkEntry (i : Nat) (name text : List Char) : List Char :=
  "\n----- [Chunk ".toList ++ Nat.toDigits 10 i ++ "] ".toList ++ name ++
    " -----\n".toList ++ text ++ "\n".toList

/-- The per-Unit policy of the transcription loop body
(src/transcribe_lecture.py:89-100): strip the ASR text, skip when empty,
flag-and-keep when the language heuristic fails, otherwise keep with a
chunk marker.  `none` means no text is emitted for this position. -/
def unitEntry (i : Nat) (name raw : List Char) : Option (List Char) :=
  let text := pyStrip raw
  if text = [] then none
  else if looks_like_japanese text = false then some (jpFlagEntry i text)
  else some (chunkEntry i name text)

/-- The transcription loop (src/transcribe_lecture.py:79-100) with the ASR
results supplied as data: chunks are `(file name, ASR text)` pairs,
enumerated starting at `i` (the source uses `enumerate(chunks, start=1)`). -/
def transcribeEntries (i : Nat) : List (List Char × List Char) → List (List Char)
  | [] => []
  | (name, raw) :: rest =>
    let text := pyStrip raw
    if text = [] then transcribeEntries (i + 1) rest
    else if looks_like_japanese text = false then
      jpFlagEntry i text :: transcribeEntries (i + 1) rest
    else
      chunkEntry i name text :: transcribeEntries (i + 1) rest

/-- `transcribe_chunks` (src/transcribe_lecture.py:61-103): the aggregate
is `"\n".join(all_texts).strip()`. -/
def transcribe_chunks (chunks : List (List Char × List Char)) : List Char :=
  pyStrip (joinNl (transcribeEntries 1 chunks))

/-! ### split_audio: segment file naming and collection -/

/-- `%03d` zero-padding of the demuxer output pattern `chunk_%03d.m4a`
(src/transcribe_lecture.py:20), modelled for the supported index range
`i < 1000`. -/
def pad3 (i : Nat) : List Char :=
  [Nat.digitChar (i / 100 % 10), Nat.digitChar (i / 10 % 10),
    Nat.digitChar (i % 10)]

/-- The demuxer's `i`-th segment file name. -/
def segmentFileName (i : Nat) : List Char :=
  "chunk_".toList ++ pad3 i ++ ".m4a".toList

/-- The segment files of a `split_audio` run that produced `n` segments,
in ascending numeric index order. -/
def segmentFiles (n : Nat) : List (List Char) :=
  (List.range n).map segmentFileName

/-- Python string `<` (lexicographic by code point). -/
def lexLt (a b : List Char) : Prop := List.Lex (· < ·) a b

/-- Python string `<=`, the order `sorted(...)` (src/transcribe_lecture.py:38)
sorts by. -/
def lexLe (a b : List Char) : Prop := lexLt a b ∨ a = b

/-! ### call_ollama -/

/-- An HTTP response from the LLM endpoint: its status code and the JSON
body's `"response"` field when present. -/
structure HttpResponse where
  status : Nat
  response : Option (List Char)

/-- `call_ollama` (src/lecture_notes_ollama.py:10-27,
src/translate_jp_to_en_ollama.py:6-18): `resp.raise_for_status()` raises
for status codes in `[400, 600)`; otherwise the function returns
`data.get("response", "").strip()`. -/
def call_ollama (r : HttpResponse) : Except Unit (List Char) :=
  if 400 ≤ r.status ∧ r.status < 600 then Except.error ()
  else Except.ok (pyStrip (r.response.getD []))

/-- The JSON payload `{"model": ..., "prompt": ..., "stream": False}`
posted by `call_ollama`. -/
structure OllamaPayload where
  model : List Char
  prompt : List Char
  stream : Bool

/-- The payload `call_ollama` posts for a given prompt. -/
def ollamaPayload (model prompt : List Char) : OllamaPayload :=
  { model := model, prompt := prompt, stream := false }

/-! ### Prompt construction (the f-strings of the two Ollama scripts) -/

/-- `summarize_chunk`'s prompt (src/lecture_notes_ollama.py:80-98), split at
the f-string holes `{part_idx}`, `{total_parts}` and `{chunk_text}`. -/
def summarizePrompt (c : List Char) (i total : Nat) : List Char :=
  "あなたは日本の大学講義ノートを作るアシスタントです。\n以下は講義文字起こしの一部です。（Part ".toList ++
  Nat.toDigits 10 i ++ "/".toList ++ Nat.toDigits 10 total ++
  "）\n\nこの部分だけについて、後で全体をまとめるための「メモ用の箇条書き」を作ってください。\n\n条件:\n- 日本語で書く\n- 箇条書き 3〜6 個\n- 重要な用語・人名・地名・時代名はできるだけそのまま残す\n- 簡潔に要点だけまとめる\n- 文章の順番は、流れが分かりやすいように並べる\n\n=== Transcript Part ".toList ++
  Nat.toDigits 10 i ++ "/".toList ++ Nat.toDigits 10 total ++
  " ===\n".toList ++ c ++
  "\n==========================================\n\n出力は、日本語の箇条書きだけにしてください。\n「Part ○○」などの余計なヘッダーや説明文は書かないでください。\n".toList

/-- `f"[Part {i}]\n"`: the position relabeling applied to each summary in
`build_final_notes_from_summaries` (src/lecture_notes_ollama.py:110-113). -/
def partLabel (i : Nat) : List Char :=
  "[Part ".toList ++ Nat.toDigits 10 i ++ "]\n".toList

/-- `merged_summaries = "\n\n".join(f"[Part {i+1}]\n{summaries[i]}" for i in
range(len(summaries)))`. -/
def mergedSummaries (summaries : List (List Char)) : List Char :=
  joinSep "\n\n".toList (summaries.enum.map (fun p => partLabel (p.1 + 1) ++ p.2))

/-- The fixed prompt text of `build_final_notes_from_summaries` before the
`{merged_summaries}` hole (src/lecture_notes_ollama.py:115-180). -/
def finalNotesPre : List Char :=
  "あなたは、日本の大学で勉強している留学生のための\n「分かりやすい講義ノート作成アシスタント」です。\n\n以下に、講義全体の要約メモ（各パートごとの箇条書き）が与えられます。\nこれらをもとに、１つの講義ノートを作ってください。\n\n学生は:\n- 日本語が第３言語\n- テスト対策とレポート作成に使いたい\n- 歴史や概念の因果関係を理解したい\n- 重要な用語は日本語でしっかり覚えたい\n\n出力フォーマットは**必ず**次の見出し・順番で作ってください。\n見出しは「### 見出し名」の形で書いてください。\n\n1. 今日のテーマ\n2. 重要キーワード\n3. 理解ポイント\n4. 試験に出そうなところ\n5. Definitions Cheat Sheet\n6. 要点5行まとめ\n7. Q&A Flashcards\n8. メモ：先生の強調ポイント\n\nそれぞれのセクションの指示:\n\n### 今日のテーマ\n- 講義全体が何についてだったかを、日本語で2〜4文でまとめる。\n\n### 重要キーワード\n- 箇条書き。\n- 形式の例:\n  ・用語: 日本語で1〜2行の説明\n- 人名・地名・時代名・概念を中心に。\n\n### 理解ポイント\n- 日本語で、因果関係や流れが分かるように説明。\n- 箇条書きでも短い段落でもOK。\n- 「なぜ〜が起きたか」「どの勢力がどう動いたか」「結果どうなったか」を意識する。\n\n### 試験に出そうなところ\n- 記述式や小論文で出そうな設問を日本語で3〜6個作る。\n- 「〜について説明せよ」「〜の特徴を述べよ」などの形。\n\n### Definitions Cheat Sheet\n- 用語辞書（超短く）。\n- 形式:\n  用語: 一言で意味（日本語）\n- 5〜10語程度でOK。\n\n### 要点5行まとめ\n- 日本語で5つの文にまとめる。\n- ①〜⑤の番号付きで。\n\n### Q&A Flashcards\n- 暗記用の質問と答えを3〜8セット作る。\n- 形式:\n  Q: （日本語の質問）\n  A: （日本語の答え）\n\n### メモ：先生の強調ポイント\n- 講義の中で強調されていそうなテーマや、何度も出てきた考え方を日本語で箇条書き。\n\n--------------------------------\n【講義メモ（パートごと）】\n".toList

/-- The fixed prompt text after the `{merged_summaries}` hole
(src/lecture_notes_ollama.py:181-184). -/
def finalNotesPost : List Char :=
  "\n--------------------------------\n\nそれでは、指示したフォーマットに従って講義ノートを作成してください。\n".toList

/-- The full second-pass prompt of `build_final_notes_from_summaries`. -/
def buildFinalNotesPrompt (summaries : List (List Char)) : List Char :=
  finalNotesPre ++ mergedSummaries summaries ++ finalNotesPost

/-- The single instruction payload `build_final_notes_from_summaries` sends
to the LLM collaborator through `call_ollama`
(src/lecture_notes_ollama.py:186, 18-22). -/
def buildFinalNotesRequest (model : List Char) (summaries : List (List Char)) :
    OllamaPayload :=
  ollamaPayload model (buildFinalNotesPrompt summaries)

/-- `xs` occur, in the given order and without overlap, as segments of `s`. -/
def occursInOrder : List (List Char) → List Char → Prop
  | [], _ => True
  | x :: xs, s => ∃ u v, s = u ++ x ++ v ∧ occursInOrder xs v

/-- The translation prompt (src/translate_jp_to_en_ollama.py:89-106), split
at the `{ch}` hole. -/
def translatePrompt (ch : List Char) : List Char :=
  "You are a careful bilingual assistant.\n\nTranslate the following Japanese academic text into clear, natural English.\nIt is a university lecture transcript or notes.\n\nRequirements:\n- Preserve technical terms (names, places, era names) accurately.\n- Use full sentences.\n- Keep paragraph breaks where it makes sense.\n- Do NOT summarize; translate as faithfully as possible.\n- Do NOT add explanations or comments, just the translation.\n\n[Japanese text begins]\n".toList ++
  ch ++
  "\n[Japanese text ends]\n\nNow provide the English translation:\n".toList

/-! ### The three pipeline drivers, with collaborators as data

`Except.error` models a raised exception / non-success HTTP status /
non-zero demuxer exit.  Each driver returns the content of the single
output file it writes, or `none` when it terminates without writing. -/

/-- The summarize loop of `lecture_notes_ollama.main`
(src/lecture_notes_ollama.py:236-246): chunks are sent in order with their
1-based position and the total count; an LLM failure propagates. -/
def runSummaries (llm : List Char → Except Unit (List Char)) (total : Nat) :
    Nat → List (List Char) → Except Unit (List (List Char))
  | _, [] => Except.ok []
  | i, c :: rest =>
    match llm (summarizePrompt c i total) with
    | Except.error e => Except.error e
    | Except.ok s =>
      match runSummaries llm total (i + 1) rest with
      | Except.error e => Except.error e
      | Except.ok ss => Except.ok (s :: ss)

/-- `lecture_notes_ollama.main` (src/lecture_notes_ollama.py:223-260), with
the input file's existence, its text, and the LLM supplied as data. -/
def lectureMain (fileExists : Bool) (text : List Char) (m : Nat)
    (llm : List Char → Except Unit (List Char)) : Option (List Char) :=
  if fileExists then
    let chunks := chunk_text text m
    match runSummaries llm chunks.length 1 chunks with
    | Except.error _ => none
    | Except.ok ss =>
      match llm (buildFinalNotesPrompt ss) with
      | Except.error _ => none
      | Except.ok notes => some notes
  else none

/-- The transcription loop with a fallible ASR collaborator
(src/transcribe_lecture.py:79-103): an ASR exception aborts the run;
otherwise the per-Unit skip/flag policy of `unitEntry` applies. -/
def runTranscribe (asr : List Char → Except Unit (List Char)) :
    Nat → List (List Char) → Except Unit (List (List Char))
  | _, [] => Except.ok []
  | i, name :: rest =>
    match asr name with
    | Except.error e => Except.error e
    | Except.ok raw =>
      match runTranscribe asr (i + 1) rest with
      | Except.error e => Except.error e
      | Except.ok entries =>
        Except.ok ((unitEntry i name raw).elim entries (· :: entries))

/-- `transcribe_lecture.main` (src/transcribe_lecture.py:136-153): missing
input exits; `split_audio` aborts on demuxer failure (`check=True`) and
exits on zero segments; the transcript is written only after the loop. -/
def transcribeMain (fileExists : Bool) (demux : Except Unit (List (List Char)))
    (asr : List Char → Except Unit (List Char)) : Option (List Char) :=
  if fileExists then
    match demux with
    | Except.error _ => none
    | Except.ok segs =>
      if segs = [] then none
      else
        match runTranscribe asr 1 segs with
        | Except.error _ => none
        | Except.ok entries => some (pyStrip (joinNl entries))
  else none

/-- Python `text.split("\n\n")` (left-to-right, non-overlapping). -/
def splitPara : List Char → List (List Char)
  | [] => [[]]
  | [c] => [[c]]
  | c :: d :: rest =>
    if c = '\n' ∧ d = '\n' then [] :: splitPara rest
    else
      match splitPara (d :: rest) with
      | [] => [[c]]
      | p :: ps => (c :: p) :: ps

/-- The paragraph accumulator loop of the translation script
(src/translate_jp_to_en_ollama.py:69-82): paragraphs are stripped, empty
ones skipped, and groups are joined with `"\n\n"` (no trim, no filter). -/
def paraAux (m : Nat) (cur : List (List Char)) (curLen : Nat) :
    List (List Char) → List (List Char)
  | [] => if cur ≠ [] then [joinSep "\n\n".toList cur] else []
  | p :: ps =>
    let p' := pyStrip p
    if p' = [] then paraAux m cur curLen ps
    else if curLen + p'.length + 2 > m ∧ cur ≠ [] then
      joinSep "\n\n".toList cur :: paraAux m [p'] (p'.length + 2) ps
    else
      paraAux m (cur ++ [p']) (curLen + p'.length + 2) ps

/-- The translation script's paragraph Segmenter
(src/translate_jp_to_en_ollama.py:63-82). -/
def translateChunks (text : List Char) (m : Nat) : List (List Char) :=
  paraAux m [] 0 (splitPara (normalizeNewlines text))

/-- The translation loop (src/translate_jp_to_en_ollama.py:86-108). -/
def runTranslations (llm : List Char → Except Unit (List Char)) :
    List (List Char) → Except Unit (List (List Char))
  | [] => Except.ok []
  | c :: rest =>
    match llm (translatePrompt c) with
    | Except.error e => Except.error e
    | Except.ok t =>
      match runTranslations llm rest with
      | Except.error e => Except.error e
      | Except.ok ts => Except.ok (t :: ts)

/-- `translate_jp_to_en_ollama.main` (src/translate_jp_to_en_ollama.py:55-111). -/
def translateMain (fileExists : Bool) (text : List Char) (m : Nat)
    (llm : List Char → Except Unit (List Char)) : Option (List Char) :=
  if fileExists then
    match runTranslations llm (translateChunks text m) with
    | Except.error _ => none
    | Except.ok ts => some (joinSep "\n\n".toList ts)
  else none

/-! ### Basic lemmas about stripping, joining and splitting -/

theorem dropWhile_dropWhile (p : α → Bool) (l : List α) :
    List.dropWhile p (List.dropWhile p l) = List.dropWhile p l := by
  induction l with
  | nil => rfl
  | cons c t ih =>
    by_cases h : p c
    · simp [List.dropWhile, h, ih]
    · simp [List.dropWhile, h]

theorem lstrip_lstrip (s : List Char) : lstrip (lstrip s) = lstrip s :=
  dropWhile_dropWhile isWS s

theorem lstrip_head_not_ws {c : Char} {t s : List Char}
    (h : lstrip s = c :: t) : isWS c = false := by
  have hh := List.head?_dropWhile_not isWS s
  rw [show s.dropWhile isWS = lstrip s from rfl, h] at hh
  simpa using hh

theorem lstrip_cons_of_not_ws {c : Char} {t : List Char} (h : isWS c = false) :
    lstrip (c :: t) = c :: t := by
  simp [lstrip, List.dropWhile, h]

/-- A prefix of a left-stripped list is left-stripped. -/
theorem lstrip_of_prefix_fixed {u v : List Char} (hu : lstrip u = u)
    (hp : v <+: u) : lstrip v = v := by
  cases v with
  | nil => rfl
  | cons c t =>
    rcases hp with ⟨w, hw⟩
    have hc : isWS c = false := by
      subst hw
      exact lstrip_head_not_ws (t := t ++ w) (by simpa using hu)
    exact lstrip_cons_of_not_ws hc

/-- `pyStrip` rewritten through `lstrip`. -/
theorem pyStrip_eq (s : List Char) :
    pyStrip s = (lstrip (lstrip s).reverse).reverse := rfl

/-- `pyStrip s` is a prefix of `lstrip s`. -/
theorem pyStrip_prefix_lstrip (s : List Char) : pyStrip s <+: lstrip s := by
  rw [pyStrip_eq]
  have h : lstrip (lstrip s).reverse <:+ (lstrip s).reverse :=
    List.dropWhile_suffix isWS
  have h2 := List.reverse_prefix.mpr h
  simpa using h2

/-- `pyStrip` is left-stripped. -/
theorem lstrip_pyStrip (s : List Char) : lstrip (pyStrip s) = pyStrip s :=
  lstrip_of_prefix_fixed (lstrip_lstrip s) (pyStrip_prefix_lstrip s)

/-- Python's `strip` is idempotent. -/
theorem pyStrip_pyStrip (s : List Char) : pyStrip (pyStrip s) = pyStrip s := by
  rw [pyStrip_eq (pyStrip s), lstrip_pyStrip s, pyStrip_eq s,
    List.reverse_reverse, lstrip_lstrip]

theorem pyStrip_length_le (s : List Char) : (pyStrip s).length ≤ s.length := by
  calc (pyStrip s).length ≤ (lstrip s).length :=
        (pyStrip_prefix_lstrip s).length_le
    _ ≤ s.length := (List.dropWhile_sublist isWS).length_le

theorem mem_of_mem_pyStrip {c : Char} {s : List Char} (h : c ∈ pyStrip s) :
    c ∈ s := by
  have h1 : c ∈ lstrip s := (pyStrip_prefix_lstrip s).subset h
  exact (List.dropWhile_sublist isWS).subset h1

theorem filter_not_dropWhile (p : α → Bool) (l : List α) :
    List.filter (fun c => !p c) (List.dropWhile p l) =
      List.filter (fun c => !p c) l := by
  induction l with
  | nil => rfl
  | cons c t ih =>
    by_cases h : p c
    · simp [List.dropWhile, List.filter, h, ih]
    · simp [List.dropWhile, h]

/-- Stripping only removes whitespace: the non-whitespace content is intact. -/
theorem nonWS_pyStrip (s : List Char) : nonWS (pyStrip s) = nonWS s := by
  have hl : ∀ t : List Char, nonWS (lstrip t) = nonWS t := fun t =>
    filter_not_dropWhile isWS t
  calc nonWS (pyStrip s)
      = (nonWS (lstrip (lstrip s).reverse)).reverse := by
        simp [pyStrip_eq, nonWS, List.filter_reverse]
    _ = (nonWS ((lstrip s).reverse)).reverse := by rw [hl]
    _ = nonWS (lstrip s) := by simp [nonWS, List.filter_reverse]
    _ = nonWS s := hl s

theorem nonWS_append (s t : List Char) :
    nonWS (s ++ t) = nonWS s ++ nonWS t := by
  simp [nonWS]

/-- Joining with an all-whitespace separator: the non-whitespace content is
the concatenation of the parts' non-whitespace content. -/
theorem nonWS_joinSep {sep : List Char} (hsep : ∀ c ∈ sep, isWS c = true) :
    ∀ ls : List (List Char), nonWS (joinSep sep ls) = (ls.map nonWS).flatten
  | [] => rfl
  | [x] => by simp [joinSep]
  | x :: y :: ys => by
    have hsepnil : nonWS sep = [] := by
      simp only [nonWS, List.filter_eq_nil_iff]
      intro c hc
      simp [hsep c hc]
    have ih := nonWS_joinSep hsep (y :: ys)
    simp [joinSep, nonWS_append, hsepnil, ih]

theorem joinSep_append_singleton (sep x : List Char) :
    ∀ ls : List (List Char), ls ≠ [] →
      joinSep sep (ls ++ [x]) = joinSep sep ls ++ sep ++ x
  | [], h => absurd rfl h
  | [y], _ => by simp [joinSep]
  | y :: z :: zs, _ => by
    have ih := joinSep_append_singleton sep x (z :: zs) (by simp)
    calc joinSep sep ((y :: z :: zs) ++ [x])
        = y ++ sep ++ joinSep sep ((z :: zs) ++ [x]) := rfl
      _ = y ++ sep ++ (joinSep sep (z :: zs) ++ sep ++ x) := by rw [ih]
      _ = (y ++ sep ++ joinSep sep (z :: zs)) ++ sep ++ x := by simp
      _ = joinSep sep (y :: z :: zs) ++ sep ++ x := rfl

theorem splitNl_ne_nil (s : List Char) : splitNl s ≠ [] := by
  cases s with
  | nil => simp [splitNl]
  | cons c rest =>
    by_cases h : c = '\n'
    · simp [splitNl, h]
    · simp only [splitNl, if_neg h]
      rcases hs : splitNl rest with _ | ⟨p, ps⟩ <;> simp

/-- `"\n".join(text.split("\n")) = text`. -/
theorem joinNl_splitNl (s : List Char) : joinNl (splitNl s) = s := by
  induction s with
  | nil => rfl
  | cons c rest ih =>
    by_cases h : c = '\n'
    · subst h
      simp only [splitNl, if_pos rfl]
      rcases hs : splitNl rest with _ | ⟨p, ps⟩
      · exact absurd hs (splitNl_ne_nil rest)
      · rw [hs] at ih
        simp [joinNl, joinSep, ← ih]
    · simp only [splitNl, if_neg h]
      rcases hs : splitNl rest with _ | ⟨p, ps⟩
      · exact absurd hs (splitNl_ne_nil rest)
      · rw [hs] at ih
        cases ps with
        | nil => simp_all [joinNl, joinSep]
        | cons q qs => simp_all [joinNl, joinSep]

/-- Lines produced by `split("\n")` contain no newline. -/
theorem not_mem_splitNl {s : List Char} :
    ∀ p ∈ splitNl s, '\n' ∉ p := by
  induction s with
  | nil => simp [splitNl]
  | cons c rest ih =>
    by_cases h : c = '\n'
    · simp only [splitNl, if_pos h]
      intro p hp
      rcases List.mem_cons.mp hp with hp | hp
      · simp [hp]
      · exact ih p hp
    · simp only [splitNl, if_neg h]
      rcases hs : splitNl rest with _ | ⟨q, qs⟩
      · exact absurd hs (splitNl_ne_nil rest)
      · intro p hp
        rcases List.mem_cons.mp hp with hp | hp
        · subst hp
          intro hmem
          rcases List.mem_cons.mp hmem with hmem | hmem
          · exact h hmem.symm
          · exact ih q (hs ▸ List.mem_cons_self q qs) hmem
        · exact ih p (hs ▸ List.mem_cons_of_mem q hp)

/-! ### C1: segmentation reconstructs the non-whitespace content -/

theorem nonWS_group (g : List (List Char)) :
    nonWS (pyStrip (joinNl g)) = (g.map nonWS).flatten := by
  rw [nonWS_pyStrip]
  exact nonWS_joinSep (by intro c hc; simp at hc; simp [hc, isWS]) g

theorem nonWS_flatten (cs : List (List Char)) :
    nonWS cs.flatten = (cs.map nonWS).flatten := by
  induction cs with
  | nil => rfl
  | cons c cs ih => simp [nonWS_append, ih]

theorem nonWS_cons (c : Char) (s : List Char) :
    nonWS (c :: s) = if isWS c then nonWS s else c :: nonWS s := by
  simp only [nonWS, List.filter_cons]
  cases h : isWS c <;> simp [h]

theorem flatten_map_nonWS_filter (cs : List (List Char)) :
    ((cs.filter (fun c => c ≠ [])).map nonWS).flatten = (cs.map nonWS).flatten := by
  induction cs with
  | nil => rfl
  | cons c cs ih =>
    by_cases h : c = []
    · subst h
      simpa [List.filter_cons, nonWS] using ih
    · simp [List.filter_cons, h]
      simpa using ih

theorem nonWS_replaceCRLF : ∀ s : List Char, nonWS (replaceCRLF s) = nonWS s
  | [] => rfl
  | [c] => rfl
  | c :: d :: rest => by
    by_cases h : c = '\r' ∧ d = '\n'
    · rw [show replaceCRLF (c :: d :: rest) = '\n' :: replaceCRLF rest by
        simp [replaceCRLF, h]]
      obtain ⟨hc, hd⟩ := h
      subst hc; subst hd
      have ih := nonWS_replaceCRLF rest
      simp [nonWS_cons, isWS, ih]
    · rw [show replaceCRLF (c :: d :: rest) = c :: replaceCRLF (d :: rest) by
        simp [replaceCRLF, h]]
      have ih := nonWS_replaceCRLF (d :: rest)
      rw [nonWS_cons, nonWS_cons, ih]

theorem nonWS_replaceCR (s : List Char) : nonWS (replaceCR s) = nonWS s := by
  induction s with
  | nil => rfl
  | cons c rest ih =>
    by_cases h : c = '\r'
    · subst h
      simp [replaceCR, nonWS_cons, isWS] at ih ⊢
      exact ih
    · simp only [replaceCR, List.map, if_neg h] at ih ⊢
      rw [nonWS_cons, nonWS_cons, ih]

theorem nonWS_normalizeNewlines (s : List Char) :
    nonWS (normalizeNewlines s) = nonWS s :=
  (nonWS_replaceCR _).trans (nonWS_replaceCRLF s)

/-- The accumulator loop preserves non-whitespace content. -/
theorem chunkAux_nonWS (m : Nat) :
    ∀ (ls cur : List (List Char)) (curLen : Nat),
      ((chunkAux m cur curLen ls).map (fun g => (g.map nonWS).flatten)).flatten =
        (cur.map nonWS).flatten ++ (ls.map nonWS).flatten
  | [], cur, curLen => by
    by_cases h : cur = []
    · simp [chunkAux, h]
    · simp [chunkAux, h]
  | l :: ls, cur, curLen => by
    rw [show chunkAux m cur curLen (l :: ls) =
        (if curLen + (pyStrip l).length + 1 > m ∧ cur ≠ [] then
          cur :: chunkAux m [pyStrip l] ((pyStrip l).length + 1) ls
        else
          chunkAux m (cur ++ [pyStrip l]) (curLen + (pyStrip l).length + 1) ls)
      from rfl]
    by_cases hc : curLen + (pyStrip l).length + 1 > m ∧ cur ≠ []
    · rw [if_pos hc]
      have ih := chunkAux_nonWS m ls [pyStrip l] ((pyStrip l).length + 1)
      simp only [List.map, List.flatten, ih]
      simp [nonWS_pyStrip]
    · rw [if_neg hc]
      have ih := chunkAux_nonWS m ls (cur ++ [pyStrip l]) (curLen + (pyStrip l).length + 1)
      rw [ih]
      simp [nonWS_pyStrip]

/-- **C1.** For every input text and every `max_chars ≥ 1`, concatenating in
position order all Units emitted by `chunk_text` reproduces the input's
non-whitespace content in the same order: only whitespace normalization
happens, with no character reordering and no loss of non-whitespace
characters. -/
theorem chunk_text_reconstructs_input (text : List Char) (m : Nat)
    (h : 1 ≤ m) : nonWS (chunk_text text m).flatten = nonWS text := by
  rw [nonWS_flatten, chunk_text, flatten_map_nonWS_filter, List.map_map]
  have hmap : ((chunkGroups text m).map (nonWS ∘ fun g => pyStrip (joinNl g))) =
      (chunkGroups text m).map (fun g => (g.map nonWS).flatten) :=
    List.map_congr_left (fun g _ => nonWS_group g)
  rw [hmap, chunkGroups, chunkAux_nonWS]
  have hsplit : ((splitNl (normalizeNewlines text)).map nonWS).flatten =
      nonWS (normalizeNewlines text) := by
    conv_rhs => rw [← joinNl_splitNl (normalizeNewlines text)]
    exact (nonWS_joinSep (by intro c hc; simp at hc; simp [hc, isWS]) _).symm
  simp only [List.map_nil, List.flatten_nil, List.nil_append]
  rw [hsplit, nonWS_normalizeNewlines]

/-- Witness for C1 at a concrete input. -/
theorem chunk_text_reconstructs_input_witness :
    1 ≤ 5 ∧ nonWS (chunk_text ("ab c\nd\n\ne fg".toList) 5).flatten =
      nonWS ("ab c\nd\n\ne fg".toList) :=
  ⟨by decide, chunk_text_reconstructs_input _ 5 (by decide)⟩

/-! ### C2: size bound, with the oversized-atomic-line exception -/

/-- Every group the accumulator closes either fits the budget (its joined
length stays strictly below `max_chars`) or is a single stripped input
line. -/
theorem chunkAux_groups_ok (m : Nat) :
    ∀ (ls cur : List (List Char)) (curLen : Nat) (L : List (List Char)),
      (∀ l ∈ ls, l ∈ L) →
      (cur = [] ∧ curLen = 0 ∨
        cur ≠ [] ∧ curLen = (joinNl cur).length + 1 ∧
          (curLen ≤ m ∨ ∃ raw ∈ L, cur = [pyStrip raw])) →
      ∀ g ∈ chunkAux m cur curLen ls,
        (joinNl g).length + 1 ≤ m ∨ ∃ raw ∈ L, g = [pyStrip raw]
  | [], cur, curLen, L, _, hcur => by
    intro g hg
    by_cases h : cur = []
    · simp [chunkAux, h] at hg
    · simp only [chunkAux, if_pos (by simpa using h : cur ≠ [])] at hg
      simp only [List.mem_singleton] at hg
      subst hg
      rcases hcur with ⟨hnil, _⟩ | ⟨_, hlen, hok⟩
      · exact absurd hnil h
      · rcases hok with hok | hok
        · exact Or.inl (hlen ▸ hok)
        · exact Or.inr hok
  | l :: ls, cur, curLen, L, hls, hcur => by
    intro g hg
    rw [show chunkAux m cur curLen (l :: ls) =
        (if curLen + (pyStrip l).length + 1 > m ∧ cur ≠ [] then
          cur :: chunkAux m [pyStrip l] ((pyStrip l).length + 1) ls
        else
          chunkAux m (cur ++ [pyStrip l]) (curLen + (pyStrip l).length + 1) ls)
      from rfl] at hg
    have hlsL : ∀ x ∈ ls, x ∈ L := fun x hx => hls x (List.mem_cons_of_mem l hx)
    have hlL : l ∈ L := hls l (List.mem_cons_self l ls)
    by_cases hcond : curLen + (pyStrip l).length + 1 > m ∧ cur ≠ []
    · rw [if_pos hcond] at hg
      rcases List.mem_cons.mp hg with hg | hg
      · subst hg
        rcases hcur with ⟨hnil, _⟩ | ⟨_, hlen, hok⟩
        · exact absurd hnil hcond.2
        · rcases hok with hok | hok
          · exact Or.inl (hlen ▸ hok)
          · exact Or.inr hok
      · refine chunkAux_groups_ok m ls [pyStrip l] _ L hlsL ?_ g hg
        exact Or.inr ⟨by simp, by simp [joinNl, joinSep],
          Or.inr ⟨l, hlL, rfl⟩⟩
    · rw [if_neg hcond] at hg
      by_cases hnil : cur = []
      · subst hnil
        rcases hcur with ⟨_, hlen0⟩ | ⟨hne, _⟩
        · subst hlen0
          refine chunkAux_groups_ok m ls [pyStrip l] _ L hlsL ?_ g
            (by simpa using hg)
          exact Or.inr ⟨by simp, by simp [joinNl, joinSep],
            Or.inr ⟨l, hlL, rfl⟩⟩
        · exact absurd rfl hne
      · rcases hcur with ⟨hnil', _⟩ | ⟨_, hlen, _⟩
        · exact absurd hnil' hnil
        · have hle : curLen + (pyStrip l).length + 1 ≤ m := by
            rcases Nat.lt_or_ge m (curLen + (pyStrip l).length + 1) with hlt | hge
            · exact absurd ⟨hlt, hnil⟩ hcond
            · exact hge
          refine chunkAux_groups_ok m ls (cur ++ [pyStrip l]) _ L hlsL ?_ g hg
          refine Or.inr ⟨by simp, ?_, Or.inl hle⟩
          rw [show joinNl (cur ++ [pyStrip l]) =
              joinNl cur ++ ['\n'] ++ pyStrip l from
            joinSep_append_singleton ['\n'] (pyStrip l) cur hnil]
          simp only [List.length_append, List.length_cons, List.length_nil]
          omega

/-- **C2.** Every Unit emitted by `chunk_text` with `max_chars ≥ 1` has
length at most `max_chars`, except a Unit that is a single unbroken atomic
line (one stripped input line, containing no newline) longer than
`max_chars`, which is emitted whole. -/
theorem chunk_text_size_bound (text : List Char) (m : Nat) (h : 1 ≤ m) :
    ∀ c ∈ chunk_text text m,
      c.length ≤ m ∨
        ('\n' ∉ c ∧ m < c.length ∧
          ∃ raw ∈ splitNl (normalizeNewlines text), c = pyStrip raw) := by
  intro c hc
  rw [chunk_text, List.mem_filter] at hc
  obtain ⟨hcmem, _⟩ := hc
  rw [List.mem_map] at hcmem
  obtain ⟨g, hg, hgc⟩ := hcmem
  have hok := chunkAux_groups_ok m (splitNl (normalizeNewlines text)) [] 0
    (splitNl (normalizeNewlines text)) (fun _ hx => hx)
    (Or.inl ⟨rfl, rfl⟩) g hg
  rcases hok with hok | ⟨raw, hraw, hg1⟩
  · left
    calc c.length = (pyStrip (joinNl g)).length := by rw [← hgc]
      _ ≤ (joinNl g).length := pyStrip_length_le _
      _ ≤ m := by omega
  · have hcs : c = pyStrip raw := by
      rw [← hgc, hg1]
      show pyStrip (joinNl [pyStrip raw]) = pyStrip raw
      rw [show joinNl [pyStrip raw] = pyStrip raw from rfl, pyStrip_pyStrip]
    by_cases hlen : c.length ≤ m
    · exact Or.inl hlen
    · refine Or.inr ⟨?_, by omega, raw, hraw, hcs⟩
      intro hmem
      rw [hcs] at hmem
      exact not_mem_splitNl raw hraw (mem_of_mem_pyStrip hmem)

/-- Witness for C2: a text with one oversized atomic line. -/
theorem chunk_text_size_bound_witness :
    1 ≤ 3 ∧ "abcdef".toList ∈ chunk_text ("abcdef\nxy".toList) 3 ∧
      ("abcdef".toList.length ≤ 3 ∨
        ('\n' ∉ "abcdef".toList ∧ 3 < "abcdef".toList.length ∧
          ∃ raw ∈ splitNl (normalizeNewlines ("abcdef\nxy".toList)),
            "abcdef".toList = pyStrip raw)) :=
  ⟨by decide, by decide,
    chunk_text_size_bound ("abcdef\nxy".toList) 3 (by decide) _ (by decide)⟩

/-! ### C3: greedy maximality

The claim as stated fails: the accumulator counts `len(line) + 1` for every
line (a separator is budgeted even for the first line of a chunk), and the
emitted Unit is additionally trimmed, so a closed Unit can still have room
for the next line.  What does hold is maximality at the level of the code's
own accounting: closing happened exactly because
`(joined length of the group) + 1 + (next line length) + 1 > max_chars`. -/

theorem chunkAux_head_ext (m : Nat) :
    ∀ (ls cur : List (List Char)) (curLen : Nat), cur ≠ [] →
      ∃ ext rest, chunkAux m cur curLen ls = (cur ++ ext) :: rest
  | [], cur, _, h => ⟨[], [], by simp [chunkAux, h]⟩
  | l :: ls, cur, curLen, h => by
    rw [show chunkAux m cur curLen (l :: ls) =
        (if curLen + (pyStrip l).length + 1 > m ∧ cur ≠ [] then
          cur :: chunkAux m [pyStrip l] ((pyStrip l).length + 1) ls
        else
          chunkAux m (cur ++ [pyStrip l]) (curLen + (pyStrip l).length + 1) ls)
      from rfl]
    by_cases hcond : curLen + (pyStrip l).length + 1 > m ∧ cur ≠ []
    · rw [if_pos hcond]
      exact ⟨[], chunkAux m [pyStrip l] ((pyStrip l).length + 1) ls, by simp⟩
    · rw [if_neg hcond]
      obtain ⟨ext, rest, heq⟩ := chunkAux_head_ext m ls (cur ++ [pyStrip l])
        (curLen + (pyStrip l).length + 1) (by simp)
      exact ⟨[pyStrip l] ++ ext, rest, by rw [heq]; simp⟩

/-- Adjacent accumulated groups always violate the accumulator's budget
test: the group's joined length plus one, plus the next group's first line
length plus one, exceeds `max_chars`. -/
theorem chunkAux_chain (m : Nat) :
    ∀ (ls cur : List (List Char)) (curLen : Nat),
      (cur = [] ∧ curLen = 0 ∨ cur ≠ [] ∧ curLen = (joinNl cur).length + 1) →
      List.Chain'
        (fun g g' => m < (joinNl g).length + 1 + (((g'.headD []).length) + 1))
        (chunkAux m cur curLen ls)
  | [], cur, curLen, _ => by
    by_cases h : cur = []
    · simp [chunkAux, h]
    · simp [chunkAux, h]
  | l :: ls, cur, curLen, hcur => by
    rw [show chunkAux m cur curLen (l :: ls) =
        (if curLen + (pyStrip l).length + 1 > m ∧ cur ≠ [] then
          cur :: chunkAux m [pyStrip l] ((pyStrip l).length + 1) ls
        else
          chunkAux m (cur ++ [pyStrip l]) (curLen + (pyStrip l).length + 1) ls)
      from rfl]
    by_cases hcond : curLen + (pyStrip l).length + 1 > m ∧ cur ≠ []
    · rw [if_pos hcond]
      have htail := chunkAux_chain m ls [pyStrip l] ((pyStrip l).length + 1)
        (Or.inr ⟨by simp, by simp [joinNl, joinSep]⟩)
      rw [List.chain'_cons']
      refine ⟨?_, htail⟩
      intro y hy
      obtain ⟨ext, rest, heq⟩ := chunkAux_head_ext m ls [pyStrip l]
        ((pyStrip l).length + 1) (by simp)
      rw [heq] at hy
      simp only [List.head?_cons, Option.mem_def, Option.some.injEq] at hy
      subst hy
      rcases hcur with ⟨hnil, _⟩ | ⟨_, hlen⟩
      · exact absurd hnil hcond.2
      · simp only [List.cons_append, List.headD_cons]
        omega
    · rw [if_neg hcond]
      by_cases hnil : cur = []
      · subst hnil
        rcases hcur with ⟨_, hlen0⟩ | ⟨hne, _⟩
        · subst hlen0
          exact chunkAux_chain m ls [pyStrip l] _
            (Or.inr ⟨by simp, by simp [joinNl, joinSep]⟩)
        · exact absurd rfl hne
      · rcases hcur with ⟨hnil', _⟩ | ⟨_, hlen⟩
        · exact absurd hnil' hnil
        · refine chunkAux_chain m ls (cur ++ [pyStrip l]) _ (Or.inr ⟨by simp, ?_⟩)
          rw [show joinNl (cur ++ [pyStrip l]) =
              joinNl cur ++ ['\n'] ++ pyStrip l from
            joinSep_append_singleton ['\n'] (pyStrip l) cur hnil]
          simp only [List.length_append, List.length_cons, List.length_nil]
          omega

/-- **C3, counterexample.** With `text = "abcd\nx"` and `max_chars = 6` the
Segmenter emits `["abcd", "x"]`, yet appending the next candidate line `"x"`
(with its joining newline) to the Unit `"abcd"` gives length 6, which does
NOT exceed `max_chars`: an emitted Unit need not be maximal in the sense the
claim states. -/
theorem chunk_text_not_maximal_cex :
    chunk_text ("abcd\nx".toList) 6 = ["abcd".toList, "x".toList] ∧
      chunkGroups ("abcd\nx".toList) 6 = [["abcd".toList], ["x".toList]] ∧
      ¬ 6 < ("abcd".toList ++ '\n' :: "x".toList).length :=
  ⟨by decide, by decide, by decide⟩

/-- **C3, amended.** Each accumulated line group of the greedy single-pass
Segmenter is maximal with respect to the accumulator's own accounting: for
every group other than the last, the group's joined length plus one,
plus the length of the first line of the following group plus one (the exact
quantity `current_len + len(line) + 1` the code tests), exceeds `max_chars`.
(The emitted Unit itself may be shorter than its group's join because of
trimming, so the claim's formulation in terms of emitted Units fails.) -/
theorem chunkGroups_greedy_maximal (text : List Char) (m : Nat) (h : 1 ≤ m) :
    List.Chain'
      (fun g g' => m < (joinNl g).length + 1 + (((g'.headD []).length) + 1))
      (chunkGroups text m) :=
  chunkAux_chain m (splitNl (normalizeNewlines text)) [] 0 (Or.inl ⟨rfl, rfl⟩)

/-- Witness for the amended C3. -/
theorem chunkGroups_greedy_maximal_witness :
    1 ≤ 4 ∧ List.Chain'
      (fun g g' => 4 < (joinNl g).length + 1 + (((g'.headD []).length) + 1))
      (chunkGroups ("aaaa\nbb".toList) 4) :=
  ⟨by decide, chunkGroups_greedy_maximal ("aaaa\nbb".toList) 4 (by decide)⟩

/-! ### C7 and C9: the language-heuristic threshold -/

/-- **C7, counterexample.** The empty string is (vacuously) composed
entirely of target-script characters and `1 ≤ 1.0`, yet
`looks_like_japanese` returns `False` on it (the `if not text` guard fires
before any ratio is computed), so the claim fails at the empty string. -/
theorem looks_like_japanese_all_jp_cex :
    (∀ c ∈ ([] : List Char), isJpChar c = true) ∧ (1 : ℚ) ≤ 1 ∧
      looks_like_japanese [] 1 = false :=
  ⟨by simp, le_refl 1, rfl⟩

/-- A non-empty all-target-script string has ratio exactly 1, hence is
classified likely for any threshold `≤ 1`. -/
theorem llj_true_of_all_jp {text : List Char} {t : ℚ} (hne : text ≠ [])
    (hall : ∀ c ∈ text, isJpChar c = true) (ht : t ≤ 1) :
    looks_like_japanese text t = true := by
  have hfil : text.filter isJpChar = text := List.filter_eq_self.mpr hall
  have hlen : 0 < text.length := List.length_pos.mpr hne
  show (if text = [] then false
    else decide (((text.filter isJpChar).length : ℚ) /
      ((max text.length 1 : Nat) : ℚ) ≥ t)) = true
  rw [if_neg hne, hfil, Nat.max_eq_left hlen, decide_eq_true_iff]
  have hq : ((text.length : ℚ)) ≠ 0 := by
    exact_mod_cast Nat.pos_iff_ne_zero.mp hlen
  rw [div_self hq]
  exact ht

/-- A string with no target-script characters has ratio 0, hence is
classified not likely for any threshold `> 0`. -/
theorem llj_false_of_no_jp {text : List Char} {t : ℚ}
    (hnone : ∀ c ∈ text, isJpChar c = false) (ht : 0 < t) :
    looks_like_japanese text t = false := by
  by_cases hne : text = []
  · subst hne; rfl
  · show (if text = [] then false
      else decide (((text.filter isJpChar).length : ℚ) /
        ((max text.length 1 : Nat) : ℚ) ≥ t)) = false
    rw [if_neg hne]
    have hfil : text.filter isJpChar = [] := by
      rw [List.filter_eq_nil_iff]
      intro c hc
      simp [hnone c hc]
    rw [hfil]
    simp only [List.length_nil, Nat.cast_zero, zero_div,
      decide_eq_false_iff_not]
    exact not_le.mpr ht

/-- **C7, amended.** For every *non-empty* string composed entirely of
target-script characters, `looks_like_japanese` returns `True` for every
threshold `≤ 1.0`; for every string containing zero target-script
characters it returns `False` for every threshold `> 0`.  (The empty
string had to be excluded from the first part: it returns `False` at every
threshold, see C9.) -/
theorem looks_like_japanese_threshold (text : List Char) (t : ℚ) :
    (text ≠ [] → (∀ c ∈ text, isJpChar c = true) → t ≤ 1 →
      looks_like_japanese text t = true) ∧
    ((∀ c ∈ text, isJpChar c = false) → 0 < t →
      looks_like_japanese text t = false) :=
  ⟨fun hne hall ht => llj_true_of_all_jp hne hall ht,
    fun hnone ht => llj_false_of_no_jp hnone ht⟩

/-- Witness for the amended C7. -/
theorem looks_like_japanese_threshold_witness :
    looks_like_japanese "あ".toList 1 = true ∧
      looks_like_japanese "ab".toList (3 / 10) = false :=
  ⟨(looks_like_japanese_threshold ("あ".toList) 1).1 (by decide) (by decide)
      (le_refl 1),
    (looks_like_japanese_threshold ("ab".toList) (3 / 10)).2 (by decide)
      (by norm_num)⟩

/-- **C9.** `looks_like_japanese` returns `False` on the empty string for
every threshold; and for every threshold `≤ 0`, every non-empty string —
even one with zero target-script characters — is classified as likely
target language (the ratio is nonnegative). -/
theorem looks_like_japanese_empty_and_nonpos (t : ℚ) :
    looks_like_japanese [] t = false ∧
      (t ≤ 0 → ∀ text : List Char, text ≠ [] →
        looks_like_japanese text t = true) := by
  constructor
  · rfl
  · intro ht text hne
    show (if text = [] then false
      else decide (((text.filter isJpChar).length : ℚ) /
        ((max text.length 1 : Nat) : ℚ) ≥ t)) = true
    rw [if_neg hne, decide_eq_true_iff]
    refine le_trans ht ?_
    positivity

/-- Witness for C9. -/
theorem looks_like_japanese_empty_and_nonpos_witness :
    looks_like_japanese [] 7 = false ∧
      looks_like_japanese "ab".toList 0 = true :=
  ⟨(looks_like_japanese_empty_and_nonpos 7).1,
    (looks_like_japanese_empty_and_nonpos 0).2 (le_refl 0) ("ab".toList)
      (by decide)⟩

/-! ### C5: skip-and-continue / flag-and-continue with stable positions -/

/-- **C5.** The transcription loop is a per-Unit `filterMap` over the
globally enumerated chunk list: a Unit with an empty (stripped) ASR result
contributes nothing while every later Unit keeps its original 1-based
position; a non-empty result failing the language heuristic is kept,
prefixed with the provenance marker carrying the Unit's position, rather
than discarded.  Both policies are total — no case aborts the run. -/
theorem transcribe_skip_and_flag :
    (∀ (i : Nat) (chunks : List (List Char × List Char)),
      transcribeEntries i chunks =
        (List.enumFrom i chunks).filterMap (fun p => unitEntry p.1 p.2.1 p.2.2)) ∧
    (∀ (chunks : List (List Char × List Char)),
      transcribe_chunks chunks =
        pyStrip (joinNl ((List.enumFrom 1 chunks).filterMap
          (fun p => unitEntry p.1 p.2.1 p.2.2)))) ∧
    (∀ (i : Nat) (name raw : List Char), pyStrip raw = [] →
      unitEntry i name raw = none) ∧
    (∀ (i : Nat) (name raw : List Char), pyStrip raw ≠ [] →
      looks_like_japanese (pyStrip raw) = false →
      unitEntry i name raw = some (jpFlagEntry i (pyStrip raw))) := by
  have hmain : ∀ (chunks : List (List Char × List Char)) (i : Nat),
      transcribeEntries i chunks =
        (List.enumFrom i chunks).filterMap (fun p => unitEntry p.1 p.2.1 p.2.2) := by
    intro chunks
    induction chunks with
    | nil => intro i; rfl
    | cons c rest ih =>
      intro i
      obtain ⟨name, raw⟩ := c
      by_cases h1 : pyStrip raw = []
      · simp [transcribeEntries, unitEntry, h1, List.filterMap_cons, ih]
      · by_cases h2 : looks_like_japanese (pyStrip raw) = false
        · simp [transcribeEntries, unitEntry, h1, h2, List.filterMap_cons, ih]
        · simp [transcribeEntries, unitEntry, h1, h2, List.filterMap_cons, ih]
  refine ⟨fun i chunks => hmain chunks i,
    fun chunks => by rw [transcribe_chunks, hmain chunks 1],
    fun i name raw h1 => by simp [unitEntry, h1],
    fun i name raw h1 h2 => by simp [unitEntry, h1, h2]⟩

/-- Witness for C5: an empty ASR result is skipped, a non-Japanese result
is kept with its position in the provenance marker. -/
theorem transcribe_skip_and_flag_witness :
    pyStrip ("  ".toList) = [] ∧
      unitEntry 2 ("a.m4a".toList) ("  ".toList) = none ∧
      unitEntry 3 ("b.m4a".toList) ("abc".toList) =
        some (jpFlagEntry 3 ("abc".toList)) :=
  ⟨by decide,
    transcribe_skip_and_flag.2.2.1 2 ("a.m4a".toList) ("  ".toList) (by decide),
    transcribe_skip_and_flag.2.2.2 3 ("b.m4a".toList) ("abc".toList)
      (by decide)
      (by
        rw [show pyStrip ("abc".toList) = "abc".toList from by decide]
        exact llj_false_of_no_jp (by decide) (by norm_num))⟩

/-! ### C4: the two-pass aggregator enumerates summaries in order -/

theorem occursInOrder_append_right {xs : List (List Char)} :
    ∀ {s : List Char} (post : List Char),
      occursInOrder xs s → occursInOrder xs (s ++ post) := by
  induction xs with
  | nil => intro s post _; trivial
  | cons x xs ih =>
    intro s post h
    obtain ⟨u, v, hs, hocc⟩ := h
    exact ⟨u, v ++ post, by rw [hs]; simp, ih post hocc⟩

theorem occursInOrder_append_left {xs : List (List Char)} {s : List Char}
    (pre : List Char) (h : occursInOrder xs s) :
    occursInOrder xs (pre ++ s) := by
  cases xs with
  | nil => trivial
  | cons x xs =>
    obtain ⟨u, v, hs, hocc⟩ := h
    exact ⟨pre ++ u, v, by rw [hs]; simp, hocc⟩

theorem occursInOrder_joinSep (sep : List Char) :
    ∀ xs : List (List Char), occursInOrder xs (joinSep sep xs)
  | [] => trivial
  | [x] => ⟨[], [], by simp [joinSep], trivial⟩
  | x :: y :: ys =>
    ⟨[], sep ++ joinSep sep (y :: ys), by simp [joinSep],
      occursInOrder_append_left sep (occursInOrder_joinSep sep (y :: ys))⟩

/-- **C4.** For every non-empty list of chunk-level summaries, the
second-pass request built by `build_final_notes_from_summaries` enumerates
every summary — each relabeled with its 1-based position as `[Part i]` — in
strictly ascending position order inside the single instruction payload
sent to the LLM collaborator. -/
theorem build_final_notes_enumerates (model : List Char)
    (summaries : List (List Char)) (hne : summaries ≠ []) :
    occursInOrder
      (summaries.enum.map (fun p => partLabel (p.1 + 1) ++ p.2))
      (buildFinalNotesRequest model summaries).prompt := by
  have h1 : occursInOrder
      (summaries.enum.map (fun p => partLabel (p.1 + 1) ++ p.2))
      (mergedSummaries summaries) :=
    occursInOrder_joinSep ("\n\n".toList) _
  have h2 := occursInOrder_append_left finalNotesPre
    (occursInOrder_append_right finalNotesPost h1)
  simpa [buildFinalNotesRequest, ollamaPayload, buildFinalNotesPrompt] using h2

/-- Witness for C4 with two summaries. -/
theorem build_final_notes_enumerates_witness :
    (["s1".toList, "s2".toList] : List (List Char)) ≠ [] ∧
      occursInOrder
        ((["s1".toList, "s2".toList] : List (List Char)).enum.map
          (fun p => partLabel (p.1 + 1) ++ p.2))
        (buildFinalNotesRequest ("llama3.1".toList)
          ["s1".toList, "s2".toList]).prompt :=
  ⟨by decide,
    build_final_notes_enumerates ("llama3.1".toList)
      ["s1".toList, "s2".toList] (by decide)⟩

/-! ### C6: one output file, written only on full success -/

/-- **C6.** Each of the three pipeline drivers writes its single derived
output file only when the input file existed and *every* collaborator call
succeeded, and then the file holds the aggregate of all Unit results; a
missing input, a failed LLM call, a failed ASR decode, a failed demuxer
run, or zero demuxer segments all leave the run with no output file —
there is never a partial-success output file. -/
theorem no_partial_output :
    (∀ (fe : Bool) (text : List Char) (m : Nat)
        (llm : List Char → Except Unit (List Char)) (out : List Char),
      lectureMain fe text m llm = some out ↔
        fe = true ∧ ∃ ss,
          runSummaries llm (chunk_text text m).length 1 (chunk_text text m) =
            Except.ok ss ∧
          llm (buildFinalNotesPrompt ss) = Except.ok out) ∧
    (∀ (fe : Bool) (demux : Except Unit (List (List Char)))
        (asr : List Char → Except Unit (List Char)) (out : List Char),
      transcribeMain fe demux asr = some out ↔
        fe = true ∧ ∃ segs, demux = Except.ok segs ∧ segs ≠ [] ∧
          ∃ es, runTranscribe asr 1 segs = Except.ok es ∧
            out = pyStrip (joinNl es)) ∧
    (∀ (fe : Bool) (text : List Char) (m : Nat)
        (llm : List Char → Except Unit (List Char)) (out : List Char),
      translateMain fe text m llm = some out ↔
        fe = true ∧ ∃ ts,
          runTranslations llm (translateChunks text m) = Except.ok ts ∧
          out = joinSep ("\n\n".toList) ts) := by
  refine ⟨?_, ?_, ?_⟩
  · intro fe text m llm out
    cases fe with
    | false => simp [lectureMain]
    | true =>
      simp only [lectureMain, if_true]
      rcases hrs : runSummaries llm (chunk_text text m).length 1
          (chunk_text text m) with e | ss
      · simp
      · rcases hll : llm (buildFinalNotesPrompt ss) with e | notes
        · simp [hll]
        · simp [hll, eq_comm]
  · intro fe demux asr out
    cases fe with
    | false => simp [transcribeMain]
    | true =>
      simp only [transcribeMain, if_true]
      rcases hd : demux with e | segs
      · simp
      · by_cases hnil : segs = []
        · simp [hnil]
        · simp only [if_neg hnil]
          rcases hrt : runTranscribe asr 1 segs with e | es
          · simp [hnil, hrt]
          · simp [hnil, hrt, eq_comm]
  · intro fe text m llm out
    cases fe with
    | false => simp [translateMain]
    | true =>
      simp only [translateMain, if_true]
      rcases hrt : runTranslations llm (translateChunks text m) with e | ts
      · simp
      · simp [eq_comm]

/-! ### C8: zero-padded segment names sort in numeric order -/

theorem digitChar_lt_digitChar :
    ∀ a b : Fin 10, (a : Nat) < (b : Nat) →
      Nat.digitChar (a : Nat) < Nat.digitChar (b : Nat) := by decide

theorem segmentFileName_lt {i j : Nat} (hj : j < 1000) (hij : i < j) :
    lexLt (segmentFileName i) (segmentFileName j) := by
  have hi : i < 1000 := Nat.lt_trans hij hj
  show List.Lex (· < ·) ("chunk_".toList ++ pad3 i ++ ".m4a".toList)
    ("chunk_".toList ++ pad3 j ++ ".m4a".toList)
  rw [List.append_assoc, List.append_assoc]
  apply List.Lex.append_left
  show List.Lex (· < ·)
    (Nat.digitChar (i / 100 % 10) :: Nat.digitChar (i / 10 % 10) ::
      Nat.digitChar (i % 10) :: ".m4a".toList)
    (Nat.digitChar (j / 100 % 10) :: Nat.digitChar (j / 10 % 10) ::
      Nat.digitChar (j % 10) :: ".m4a".toList)
  have hten : (0 : Nat) < 10 := by norm_num
  rcases Nat.lt_trichotomy (i / 100 % 10) (j / 100 % 10) with h2 | h2 | h2
  · exact List.Lex.rel
      (digitChar_lt_digitChar ⟨_, Nat.mod_lt _ hten⟩ ⟨_, Nat.mod_lt _ hten⟩ h2)
  · rw [h2]
    apply List.Lex.cons
    rcases Nat.lt_trichotomy (i / 10 % 10) (j / 10 % 10) with h1 | h1 | h1
    · exact List.Lex.rel
        (digitChar_lt_digitChar ⟨_, Nat.mod_lt _ hten⟩ ⟨_, Nat.mod_lt _ hten⟩ h1)
    · rw [h1]
      apply List.Lex.cons
      have h0 : i % 10 < j % 10 := by omega
      exact List.Lex.rel
        (digitChar_lt_digitChar ⟨_, Nat.mod_lt _ hten⟩ ⟨_, Nat.mod_lt _ hten⟩ h0)
    · exfalso; omega
  · exfalso; omega

theorem lexLt_asymm {a b : List Char} (h1 : lexLt a b) (h2 : lexLt b a) :
    False := by
  haveI : IsAsymm Char (· < ·) := ⟨fun x y hx hy => absurd hy (lt_asymm hx)⟩
  exact (List.Lex.isAsymm (· < ·)).asymm a b h1 h2

/-- **C8.** The segment files produced by `split_audio` (named
`chunk_%03d.m4a`) are, in ascending numeric index order, lexicographically
sorted; and for any supported chunk count (`n ≤ 1000`), *any* filesystem
listing order of those files, once sorted lexicographically as `sorted()`
does, equals ascending numeric index order. -/
theorem split_audio_collect_order (n : Nat) (hn : n ≤ 1000) :
    (segmentFiles n).Sorted lexLt ∧
      ∀ l : List (List Char), l.Perm (segmentFiles n) → l.Sorted lexLe →
        l = segmentFiles n := by
  have hpw : (segmentFiles n).Sorted lexLt := by
    show (List.map segmentFileName (List.range n)).Pairwise lexLt
    rw [List.pairwise_map]
    refine List.Pairwise.imp_of_mem ?_ (List.pairwise_lt_range n)
    intro a b _ hb hab
    exact segmentFileName_lt (lt_of_lt_of_le (List.mem_range.mp hb) hn) hab
  refine ⟨hpw, ?_⟩
  intro l hperm hsort
  haveI : IsAntisymm (List Char) lexLe := ⟨by
    intro a b h1 h2
    rcases h1 with h1 | h1
    · rcases h2 with h2 | h2
      · exact absurd h2 (fun h2 => lexLt_asymm h1 h2)
      · exact h2.symm
    · exact h1⟩
  exact List.eq_of_perm_of_sorted hperm hsort (hpw.imp (fun h => Or.inl h))

/-- Witness for C8 at `n = 3`. -/
theorem split_audio_collect_order_witness :
    (3 ≤ 1000 ∧ (segmentFiles 3).Sorted lexLt) ∧
      segmentFiles 3 = segmentFiles 3 :=
  ⟨⟨by norm_num, (split_audio_collect_order 3 (by norm_num)).1⟩,
    (split_audio_collect_order 3 (by norm_num)).2 (segmentFiles 3)
      (List.Perm.refl _)
      (((split_audio_collect_order 3 (by norm_num)).1).imp
        (fun h => Or.inl h))⟩

/-! ### C10: call_ollama on a success status -/

/-- **C10.** Whenever the endpoint's status is not in the
`raise_for_status` range `[400, 600)`, `call_ollama` returns the JSON
body's `response` field trimmed of surrounding whitespace, and when that
field is absent it returns the empty string instead of raising. -/
theorem call_ollama_success (r : HttpResponse)
    (h : ¬(400 ≤ r.status ∧ r.status < 600)) :
    call_ollama r = Except.ok (pyStrip (r.response.getD [])) ∧
      (r.response = none → call_ollama r = Except.ok []) := by
  constructor
  · simp [call_ollama, h]
  · intro hn
    simp [call_ollama, h, hn]
    rfl

/-- Witness for C10: status 200 with an absent `response` field. -/
theorem call_ollama_success_witness :
    ¬(400 ≤ (200 : Nat) ∧ (200 : Nat) < 600) ∧
      call_ollama ⟨200, none⟩ = Except.ok [] :=
  ⟨by decide, (call_ollama_success ⟨200, none⟩ (by decide)).2 rfl⟩

end NaniShiteru
